import Mathlib

/-!
Verification of the EPT_Scope_STM32 oscilloscope core.

This file is a shallow embedding, over exact rational arithmetic, of the
data model and operations of `src/STM_32/main.py` (class `OscilloscopeUI`)
and, where a claim cites it, `src/EPTscope.py` (class `EPTScope`).
Python floats are idealised as `Rat`; NumPy/SciPy library calls are embedded
from their documented semantics.  GUI-only behaviour (widgets, icons, plot
painting) is outside the model; the modelled state keeps exactly the fields
that the claims are about.
-/

set_option maxRecDepth 4000

namespace EPTScope

/-- The mutable state of `OscilloscopeUI` that the core operations touch:
`ser` models whether `self.ser` holds an open serial handle, `is_running`
is `self.is_running`, `timerOn` models whether `self.timer` is active,
`timestamps`/`data` are the two sample lists, and `workers` counts the
reader threads spawned with `threading.Thread(target=self.read_data)`.
Button-enable flags and other pure widget state are not modelled. -/
structure Scope where
  ser : Bool
  is_running : Bool
  timerOn : Bool
  timestamps : List ℚ
  data : List ℚ
  workers : ℕ
  deriving DecidableEq

/-- User-visible reports an operation can emit (QMessageBox warnings and
console error prints).  `invalidTransition` exists so that the spec's
"reports an invalid-transition condition" is expressible; the source never
emits it. -/
inductive Report where
  | noPortAvailable
  | openFailed
  | noSignalWarning
  | insufficientData
  | invalidTransition
  deriving DecidableEq

/-- `max_data_points` in `read_data`. -/
def max_data_points : ℕ := 1000

/-- One append to a bounded list, as in `read_data`: append, then if the
length exceeds `cap`, `pop(0)` exactly one (the oldest) element. -/
def appendEvict (cap : ℕ) (buf : List α) (x : α) : List α :=
  if cap < (buf ++ [x]).length then (buf ++ [x]).drop 1 else buf ++ [x]

/-- The locked block of `read_data` (main.py lines 415-420): append the
timestamp and the value, then evict the oldest pair when
`len(self.data) > max_data_points`.  The eviction condition tests the
length of `data`, exactly as the source does. -/
def pushSample (s : Scope) (t v : ℚ) : Scope :=
  if max_data_points < (s.data ++ [v]).length then
    { s with
        timestamps := (s.timestamps ++ [t]).drop 1,
        data := (s.data ++ [v]).drop 1 }
  else
    { s with timestamps := s.timestamps ++ [t], data := s.data ++ [v] }

/-- A whole sequence of ingested samples, oldest first. -/
def pushMany (s : Scope) (ps : List (ℚ × ℚ)) : Scope :=
  ps.foldl (fun s p => pushSample s p.1 p.2) s

/-- The freshly constructed `OscilloscopeUI` state: no serial handle, not
running, empty buffers, no reader thread. -/
def initScope : Scope :=
  { ser := false, is_running := false, timerOn := false,
    timestamps := [], data := [], workers := 0 }

theorem length_appendEvict (cap : ℕ) (buf : List α) (x : α)
    (h : buf.length ≤ cap) : (appendEvict cap buf x).length ≤ cap := by
  unfold appendEvict
  split <;> simp_all

theorem foldl_appendEvict (cap : ℕ) (xs : List α) (buf : List α)
    (h : buf.length ≤ cap) :
    xs.foldl (appendEvict cap) buf
      = (buf ++ xs).drop (buf.length + xs.length - cap) := by
  induction xs generalizing buf with
  | nil =>
    simp [Nat.sub_eq_zero_of_le h]
  | cons x xs ih =>
    rw [List.foldl_cons]
    rcases Nat.lt_or_ge buf.length cap with hlt | hge
    · have hx : appendEvict cap buf x = buf ++ [x] := by
        unfold appendEvict
        rw [if_neg]
        simp
        omega
      rw [hx, ih (buf ++ [x]) (by simp; omega)]
      rw [List.append_assoc]
      simp
      congr 1
      omega
    · have hbe : buf.length = cap := Nat.le_antisymm h hge
      have hx : appendEvict cap buf x = (buf ++ [x]).drop 1 := by
        unfold appendEvict
        rw [if_pos]
        simp
        omega
      have hlen : ((buf ++ [x]).drop 1).length = cap := by
        simp [hbe]
      rw [hx, ih ((buf ++ [x]).drop 1) (le_of_eq hlen)]
      rw [hlen]
      have hd : (buf ++ [x]).drop 1 ++ xs = ((buf ++ [x]) ++ xs).drop 1 :=
        (List.drop_append_of_le_length (by simp)).symm
      rw [hd, List.drop_drop, List.append_assoc, List.singleton_append]
      congr 1
      simp only [List.length_cons, List.length_append, List.length_drop]
      omega

theorem pushSample_data (s : Scope) (t v : ℚ)
    (h : s.data.length = s.timestamps.length) :
    (pushSample s t v).data = appendEvict max_data_points s.data v
    ∧ (pushSample s t v).timestamps
        = appendEvict max_data_points s.timestamps t
    ∧ (pushSample s t v).data.length = (pushSample s t v).timestamps.length
    ∧ (pushSample s t v).ser = s.ser
    ∧ (pushSample s t v).is_running = s.is_running
    ∧ (pushSample s t v).workers = s.workers := by
  unfold pushSample appendEvict
  by_cases hc : max_data_points < (s.data ++ [v]).length
  · have hc2 : max_data_points < (s.timestamps ++ [t]).length := by
      simp only [List.length_append, List.length_singleton] at hc ⊢
      omega
    rw [if_pos hc, if_pos hc, if_pos hc2]
    exact ⟨rfl, rfl, by simp [h], rfl, rfl, rfl⟩
  · have hc2 : ¬ max_data_points < (s.timestamps ++ [t]).length := by
      simp only [List.length_append, List.length_singleton] at hc ⊢
      omega
    rw [if_neg hc, if_neg hc, if_neg hc2]
    exact ⟨rfl, rfl, by simp [h], rfl, rfl, rfl⟩

theorem pushMany_components (ps : List (ℚ × ℚ)) (s : Scope)
    (h : s.data.length = s.timestamps.length) :
    (pushMany s ps).data
      = (ps.map Prod.snd).foldl (appendEvict max_data_points) s.data
    ∧ (pushMany s ps).timestamps
      = (ps.map Prod.fst).foldl (appendEvict max_data_points) s.timestamps := by
  induction ps generalizing s with
  | nil => exact ⟨rfl, rfl⟩
  | cons p ps ih =>
    obtain ⟨hd, ht, hlen, -, -, -⟩ := pushSample_data s p.1 p.2 h
    obtain ⟨ihd, iht⟩ := ih (pushSample s p.1 p.2) hlen
    constructor
    · rw [List.map_cons, List.foldl_cons, ← hd]
      exact ihd
    · rw [List.map_cons, List.foldl_cons, ← ht]
      exact iht

/-- C1: for every sequence of appended samples (as `(timestamp, value)`
pairs, oldest first) pushed through `read_data`'s locked append-and-evict
block starting from the fresh state, the buffer never holds more than
`max_data_points = 1000` entries, and what it holds is exactly the last
1000 appended samples in their original relative order (FIFO eviction of
one oldest entry per overflowing append). -/
theorem buffer_fifo_bound (ps : List (ℚ × ℚ)) :
    (pushMany initScope ps).data.length ≤ 1000
    ∧ (pushMany initScope ps).timestamps.length ≤ 1000
    ∧ (pushMany initScope ps).data
        = (ps.map Prod.snd).drop (ps.length - 1000)
    ∧ (pushMany initScope ps).timestamps
        = (ps.map Prod.fst).drop (ps.length - 1000) := by
  obtain ⟨hd, ht⟩ := pushMany_components ps initScope rfl
  have hmax : max_data_points = 1000 := rfl
  have hd' : (pushMany initScope ps).data
      = (ps.map Prod.snd).drop (ps.length - 1000) := by
    rw [hd, foldl_appendEvict _ _ _ (by simp [initScope])]
    simp [initScope, hmax]
  have ht' : (pushMany initScope ps).timestamps
      = (ps.map Prod.fst).drop (ps.length - 1000) := by
    rw [ht, foldl_appendEvict _ _ _ (by simp [initScope])]
    simp [initScope, hmax]
  refine ⟨?_, ?_, hd', ht'⟩
  · rw [hd']
    simp
    omega
  · rw [ht']
    simp
    omega

/-- The shorter of the two operands of `np.convolve` (numpy swaps the
operands so that the kernel of the sliding sum is the shorter array; by
commutativity of convolution the values are unaffected). -/
def convShort (a v : List ℚ) : List ℚ := if v.length ≤ a.length then v else a

/-- The longer of the two operands of `np.convolve`. -/
def convLong (a v : List ℚ) : List ℚ := if v.length ≤ a.length then a else v

/-- `np.convolve(a, v, mode='valid')`: the discrete convolution restricted
to the positions where the arrays fully overlap, of length
`max(M, N) - min(M, N) + 1`.  Output position `i` is the full-convolution
coefficient at index `i + min - 1`. -/
def convolveValid (a v : List ℚ) : List ℚ :=
  (List.range ((convLong a v).length - (convShort a v).length + 1)).map
    (fun i => ∑ j ∈ Finset.range (convShort a v).length,
      (convShort a v).getD j 0
        * (convLong a v).getD (i + (convShort a v).length - 1 - j) 0)

/-- `moving_average` (main.py lines 473-475):
`np.convolve(data, np.ones(window_size) / window_size, mode='valid')`.
`np.convolve` raises `ValueError` when either operand is empty, hence the
`Option`. -/
def moving_average (data : List ℚ) (window_size : ℕ) : Option (List ℚ) :=
  if data.length = 0 ∨ window_size = 0 then none
  else some (convolveValid data (List.replicate window_size (1 / (window_size : ℚ))))

theorem getD_replicate (n : ℕ) (x d : ℚ) (i : ℕ) :
    (List.replicate n x).getD i d = if i < n then x else d := by
  induction n generalizing i with
  | zero => simp
  | succ n ih =>
    cases i with
    | zero => simp [List.replicate_succ]
    | succ i =>
      simp only [List.replicate_succ, List.getD_cons_succ, ih]
      by_cases h : i < n
      · rw [if_pos h, if_pos (by omega)]
      · rw [if_neg h, if_neg (by omega)]

theorem getD_map_range {α : Type*} (f : ℕ → α) (k i : ℕ) (d : α) (h : i < k) :
    ((List.range k).map f).getD i d = f i := by
  rw [List.getD_eq_getElem?_getD, List.getElem?_map, List.getElem?_range h]
  rfl

/-- C2 counterexample: with 2 input samples and window size 5 the code's
moving average is NOT empty — `np.convolve(..., 'valid')` swaps the
operands and returns `5 - 2 + 1 = 4` samples, each `(1 + 2) / 5`.  The
claim says a window larger than the input yields an empty result. -/
theorem moving_average_window_gt_not_empty :
    moving_average [1, 2] 5 = some [3/5, 3/5, 3/5, 3/5]
    ∧ moving_average ([1, 2] : List ℚ) 5 ≠ some [] := by
  have h : moving_average [1, 2] 5 = some [3/5, 3/5, 3/5, 3/5] := by
    unfold moving_average convolveValid convShort convLong
    norm_num [List.range_succ, Finset.sum_range_succ]
  exact ⟨h, by rw [h]; simp⟩

/-- C2 as amended: with `n ≥ 1` input samples and window `w ≥ 1`, if
`w ≤ n` the moving average has exactly `n - w + 1` entries, the `i`-th
being the arithmetic mean of the `w` consecutive inputs starting at `i`;
if `w > n` it instead has `w - n + 1` entries, each the sum of all `n`
inputs divided by `w` (not an empty result).  With `n = 0` (or `w = 0`)
`np.convolve` raises. -/
theorem moving_average_valid_conv (data : List ℚ) (w : ℕ)
    (hd : 1 ≤ data.length) (hw : 1 ≤ w) :
    ∃ out, moving_average data w = some out
    ∧ (w ≤ data.length →
        out.length = data.length - w + 1
        ∧ ∀ i < out.length,
            out.getD i 0 = (∑ j ∈ Finset.range w, data.getD (i + j) 0) / w)
    ∧ (data.length < w →
        out.length = w - data.length + 1
        ∧ ∀ i < out.length,
            out.getD i 0
              = (∑ j ∈ Finset.range data.length, data.getD j 0) / w) := by
  have hker : (List.replicate w (1 / (w : ℚ))).length = w := by simp
  refine ⟨convolveValid data (List.replicate w (1 / (w : ℚ))), ?_, ?_, ?_⟩
  · unfold moving_average
    rw [if_neg (by omega)]
  · intro hwn
    have hshort : convShort data (List.replicate w (1 / (w : ℚ)))
        = List.replicate w (1 / (w : ℚ)) := by
      unfold convShort
      rw [if_pos (by simpa using hwn)]
    have hlong : convLong data (List.replicate w (1 / (w : ℚ))) = data := by
      unfold convLong
      rw [if_pos (by simpa using hwn)]
    constructor
    · unfold convolveValid
      rw [hshort, hlong, hker]
      simp
    · intro i hi
      unfold convolveValid at hi ⊢
      rw [hshort, hlong, hker] at hi ⊢
      simp only [List.length_map, List.length_range] at hi
      rw [getD_map_range _ _ _ _ hi]
      have hstep : ∀ j ∈ Finset.range w,
          (List.replicate w (1 / (w : ℚ))).getD j 0
            * data.getD (i + w - 1 - j) 0
          = (1 / (w : ℚ)) * data.getD (i + (w - 1 - j)) 0 := by
        intro j hj
        rw [Finset.mem_range] at hj
        rw [getD_replicate, if_pos hj]
        congr 2
        omega
      rw [Finset.sum_congr rfl hstep, ← Finset.mul_sum,
        Finset.sum_range_reflect (fun j => data.getD (i + j) 0) w]
      rw [one_div, inv_mul_eq_div]
  · intro hnw
    have hshort : convShort data (List.replicate w (1 / (w : ℚ))) = data := by
      unfold convShort
      rw [if_neg (by simp; omega)]
    have hlong : convLong data (List.replicate w (1 / (w : ℚ)))
        = List.replicate w (1 / (w : ℚ)) := by
      unfold convLong
      rw [if_neg (by simp; omega)]
    constructor
    · unfold convolveValid
      rw [hshort, hlong, hker]
      simp
    · intro i hi
      unfold convolveValid at hi ⊢
      rw [hshort, hlong, hker] at hi ⊢
      simp only [List.length_map, List.length_range] at hi
      rw [getD_map_range _ _ _ _ hi]
      have hstep : ∀ j ∈ Finset.range data.length,
          data.getD j 0
            * (List.replicate w (1 / (w : ℚ))).getD
                (i + data.length - 1 - j) 0
          = data.getD j 0 * (1 / (w : ℚ)) := by
        intro j hj
        rw [Finset.mem_range] at hj
        rw [getD_replicate, if_pos (by omega)]
      rw [Finset.sum_congr rfl hstep, ← Finset.sum_mul]
      rw [one_div, ← div_eq_mul_inv]

/-- Witness for `moving_average_valid_conv` at the spec's own scenario:
three samples `[1, 2, 3]` with window 2 give `[3/2, 5/2]`. -/
theorem moving_average_valid_conv_witness :
    1 ≤ ([1, 2, 3] : List ℚ).length ∧ 1 ≤ 2
    ∧ (∃ out, moving_average [1, 2, 3] 2 = some out
        ∧ (2 ≤ ([1, 2, 3] : List ℚ).length →
            out.length = ([1, 2, 3] : List ℚ).length - 2 + 1
            ∧ ∀ i < out.length,
                out.getD i 0
                  = (∑ j ∈ Finset.range 2,
                      ([1, 2, 3] : List ℚ).getD (i + j) 0) / 2)
        ∧ (([1, 2, 3] : List ℚ).length < 2 →
            out.length = 2 - ([1, 2, 3] : List ℚ).length + 1
            ∧ ∀ i < out.length,
                out.getD i 0
                  = (∑ j ∈ Finset.range ([1, 2, 3] : List ℚ).length,
                      ([1, 2, 3] : List ℚ).getD j 0) / 2)) :=
  ⟨by decide, by decide,
    moving_average_valid_conv [1, 2, 3] 2 (by decide) (by decide)⟩

/-- One step of the run tokenizer, consuming characters right to left:
the accumulator is the run currently being built (touching the position
just after the cursor) together with the finished runs to its right. -/
def runStep (p : Char → Bool) (c : Char)
    (acc : List Char × List (List Char)) : List Char × List (List Char) :=
  if p c then (c :: acc.1, acc.2)
  else ([], if acc.1 = [] then acc.2 else acc.1 :: acc.2)

def runsOfAux (p : Char → Bool) (l : List Char) :
    List Char × List (List Char) :=
  l.foldr (runStep p) ([], [])

/-- The maximal contiguous runs of characters satisfying `p`, in order of
appearance.  With `p = Char.isDigit` this is `re.findall(r"\d+", line)`;
with `p = fun c => !c.isWhitespace` it is `line.strip().split()`. -/
def runsOf (p : Char → Bool) (l : List Char) : List (List Char) :=
  if (runsOfAux p l).1 = [] then (runsOfAux p l).2
  else (runsOfAux p l).1 :: (runsOfAux p l).2

/-- `re.findall(r"\d+", line)` in `read_data`: every maximal run of
decimal digits.  (Frames are ASCII text decoded from the serial port.) -/
def digitRuns (line : List Char) : List (List Char) := runsOf Char.isDigit line

/-- `int(...)` on a run of decimal digits. -/
def runToNat (r : List Char) : ℕ :=
  r.foldl (fun n c => 10 * n + (c.toNat - 48)) 0

/-- The conversion in `read_data` (line 410):
`voltage = (adc_value / max_adc_value) * vref - 0.6` with
`max_adc_value = 4095` and `vref = 3.3`. -/
def adc_to_voltage (raw : ℕ) : ℚ := ((raw : ℚ) / 4095) * (33 / 10) - 3 / 5

/-- One iteration of `read_data`'s loop body on a decoded frame: keep the
digit runs; if any, take the last one as the raw ADC code, convert it and
append the sample, else drop the frame. -/
def read_frame (s : Scope) (t : ℚ) (line : List Char) : Scope :=
  match (digitRuns line).getLast? with
  | none => s
  | some r => pushSample s t (adc_to_voltage (runToNat r))

theorem pushSample_last (s : Scope) (t v : ℚ) :
    (pushSample s t v).data.getLast? = some v := by
  unfold pushSample
  by_cases hc : max_data_points < (s.data ++ [v]).length
  · rw [if_pos hc]
    show ((s.data ++ [v]).drop 1).getLast? = some v
    rw [List.drop_append_of_le_length
      (by simp only [max_data_points, List.length_append,
        List.length_singleton] at hc ⊢; omega)]
    simp
  · rw [if_neg hc]
    show ((s.data ++ [v])).getLast? = some v
    simp

/-- C3: a frame with no digit run leaves the buffer untouched; a frame
with at least one digit run appends exactly one sample, through
`read_data`'s append-and-evict block, whose value is
`(raw / 4095) * 3.3 - 0.6` for `raw` the integer value of the last digit
run, and that sample ends up as the newest buffer entry. -/
theorem read_frame_last_digit_run (s : Scope) (t : ℚ) (line : List Char) :
    (digitRuns line = [] → read_frame s t line = s)
    ∧ ∀ r, (digitRuns line).getLast? = some r →
        read_frame s t line = pushSample s t (adc_to_voltage (runToNat r))
        ∧ (read_frame s t line).data.getLast?
            = some (adc_to_voltage (runToNat r)) := by
  constructor
  · intro h
    unfold read_frame
    rw [h]
    rfl
  · intro r hr
    constructor
    · unfold read_frame
      rw [hr]
    · unfold read_frame
      rw [hr]
      exact pushSample_last s t (adc_to_voltage (runToNat r))

/-- Witness for `read_frame_last_digit_run` on the concrete frame
`T:12 V:345`: the last digit run is `345` and the appended value is
`(345 / 4095) * 3.3 - 0.6`. -/
theorem read_frame_last_digit_run_witness :
    (digitRuns ['T', ':', '1', '2', ' ', 'V', ':', '3', '4', '5']).getLast?
      = some ['3', '4', '5']
    ∧ read_frame initScope 0 ['T', ':', '1', '2', ' ', 'V', ':', '3', '4', '5']
        = pushSample initScope 0 (adc_to_voltage 345) :=
  ⟨by decide,
    ((read_frame_last_digit_run initScope 0
        ['T', ':', '1', '2', ' ', 'V', ':', '3', '4', '5']).2
      ['3', '4', '5'] (by decide)).1⟩

/-- `start_signal` (main.py lines 361-382).  `portAvailable` models the
`com_port == "No ports available"` test; `openOk` models whether the
`serial.Serial(...)` constructor succeeds (it raises `SerialException`
otherwise, in which case the `except` branch only prints).  On success the
handle is stored, `is_running` is set, BOTH buffers are reset
unconditionally, the plot timer starts, and a new `read_data` worker
thread is spawned. -/
def start_signal (portAvailable openOk : Bool) (s : Scope) :
    Scope × List Report :=
  match portAvailable, openOk with
  | false, _ => (s, [Report.noPortAvailable])
  | true, true =>
    ({ s with
        ser := true, is_running := true, timerOn := true,
        timestamps := [], data := [], workers := s.workers + 1 }, [])
  | true, false => (s, [Report.openFailed])

/-- `pause_signal` (main.py lines 384-394): clear `is_running`, stop the
timer, close the serial handle if open.  It emits no report of any kind
(the button-enable updates are pure widget state, not modelled). -/
def pause_signal (s : Scope) : Scope × List Report :=
  ({ s with is_running := false, timerOn := false, ser := false }, [])

/-- `clear_screen` (main.py lines 334-359): after the user confirms, both
sample lists are reset. -/
def clear_screen (confirmed : Bool) (s : Scope) : Scope :=
  if confirmed then { s with data := [], timestamps := [] } else s

/-- C5 counterexample: from a Paused state holding one sample, a
successful `start_signal` leaves an EMPTY buffer — lines 375-376 reset
`self.data` and `self.timestamps` unconditionally, so resuming does not
preserve history. -/
theorem start_resume_clears_history_cex :
    (start_signal true true
        { ser := false, is_running := false, timerOn := false,
          timestamps := [0], data := [29/100], workers := 1 }).1.data = []
    ∧ ([29/100] : List ℚ) ≠ [] := by
  exact ⟨rfl, by simp⟩

/-- C5 as amended: whenever the transport opens successfully,
`start_signal` resets the buffer to empty — both when starting fresh and
when resuming from Paused.  Existing history is never preserved. -/
theorem start_always_resets_buffer (s : Scope) :
    (start_signal true true s).1.data = []
    ∧ (start_signal true true s).1.timestamps = [] :=
  ⟨rfl, rfl⟩

/-- C9 counterexample: a second `start_signal` right after a first leaves
a DIFFERENT state (a second `read_data` worker is spawned) and reports
nothing; a second `pause_signal` is state-idempotent but also reports
nothing.  No invalid-transition condition is ever reported. -/
theorem transition_no_invalid_report_cex :
    (start_signal true true (start_signal true true initScope).1).1
        ≠ (start_signal true true initScope).1
    ∧ Report.invalidTransition
        ∉ (start_signal true true (start_signal true true initScope).1).2
    ∧ (pause_signal (pause_signal (start_signal true true initScope).1).1).1
        = (pause_signal (start_signal true true initScope).1).1
    ∧ Report.invalidTransition
        ∉ (pause_signal (pause_signal (start_signal true true initScope).1).1).2 := by
  refine ⟨?_, by decide, rfl, by decide⟩
  intro h
  exact absurd (congrArg Scope.workers h) (by decide)

/-- C9 as amended: `pause_signal` twice leaves the state identical to one
call but the repeated call reports nothing (no invalid-transition
detection exists); `start_signal` twice (with the port re-opening
successfully, the POSIX pyserial default) resets the buffer again and
spawns one additional reader worker — the state after the second call is
the state after the first except for the extra worker — and also reports
nothing. -/
theorem pause_start_repeat_effects (s : Scope) :
    (pause_signal (pause_signal s).1).1 = (pause_signal s).1
    ∧ (pause_signal (pause_signal s).1).2 = []
    ∧ (start_signal true true (start_signal true true s).1).1
        = { (start_signal true true s).1 with
            workers := (start_signal true true s).1.workers + 1 }
    ∧ (start_signal true true (start_signal true true s).1).2 = [] :=
  ⟨rfl, rfl, rfl, rfl⟩

/-- Direct-form IIR step of `scipy.signal.lfilter`: with `n` outputs `ys`
already produced, the next output is
`(Σ_k b[k]·x[n-k] - Σ_{k≥1} a[k]·y[n-k]) / a[0]`. -/
def lfilterNext (b a x ys : List ℚ) : ℚ :=
  ((∑ k ∈ Finset.range b.length,
      if k ≤ ys.length then b.getD k 0 * x.getD (ys.length - k) 0 else 0)
    - (∑ k ∈ Finset.range a.length,
      if 1 ≤ k ∧ k ≤ ys.length then a.getD k 0 * ys.getD (ys.length - k) 0
      else 0))
    / a.getD 0 1

def lfilterGo (b a x : List ℚ) : ℕ → List ℚ
  | 0 => []
  | n + 1 => lfilterGo b a x n ++ [lfilterNext b a x (lfilterGo b a x n)]

/-- `scipy.signal.lfilter(b, a, x)`: one output per input sample. -/
def lfilter (b a x : List ℚ) : List ℚ := lfilterGo b a x x.length

/-- `apply_filter` (main.py lines 301-327).  With an empty buffer it only
warns.  Otherwise it snapshots the data, estimates the sampling rate,
picks `cutoff = 0.1 · (0.5 · rate)` — so the normalised cutoff passed to
`butter` is always `0.1` regardless of the estimate — computes
`low_pass_filter` = `lfilter(butter(4, 0.1, 'low'), data)`, and WRITES the
filtered array back into `self.data` (line 325), leaving `self.timestamps`
as they were.  The Butterworth coefficients returned by
`scipy.signal.butter(4, 0.1)` are fixed irrational reals, so they enter
the model as the parameters `b`, `a` of the state transition. -/
def apply_filter (b a : List ℚ) (s : Scope) : Scope × List Report :=
  if s.data = [] then (s, [Report.noSignalWarning])
  else ({ s with data := lfilter b a s.data }, [])

/-- C4: `apply_filter` is NOT pure with respect to the buffer — for every
filter coefficient pair and every nonempty buffer it overwrites the stored
values with the `lfilter` output (timestamps are kept).  This contradicts
the spec's "readers never mutate the buffer". -/
theorem apply_filter_overwrites_buffer (b a : List ℚ) (s : Scope)
    (h : s.data ≠ []) :
    (apply_filter b a s).1.data = lfilter b a s.data
    ∧ (apply_filter b a s).1.timestamps = s.timestamps
    ∧ (apply_filter b a s).2 = [] := by
  unfold apply_filter
  rw [if_neg (by simpa using h)]
  exact ⟨rfl, rfl, rfl⟩

/-- Witness for `apply_filter_overwrites_buffer`: a one-sample buffer
`[2]` filtered with the sample coefficients `b = [1/2]`, `a = [1]` is
rewritten to `lfilter [1/2] [1] [2] = [1] ≠ [2]`. -/
theorem apply_filter_overwrites_buffer_witness :
    ({ initScope with data := [2], timestamps := [0] } : Scope).data ≠ []
    ∧ (apply_filter [1/2] [1]
        { initScope with data := [2], timestamps := [0] }).1.data
      = lfilter [1/2] [1] [2]
    ∧ lfilter [1/2] [1] [2] = [1]
    ∧ ([1] : List ℚ) ≠ [2] := by
  refine ⟨by simp, (apply_filter_overwrites_buffer [1/2] [1] _ (by simp)).1,
    ?_, by simp⟩
  show lfilterGo [1/2] [1] [2] 1 = [1]
  rw [lfilterGo, lfilterGo]
  unfold lfilterNext
  norm_num

/-- `np.linspace(a, b, num)` with default `endpoint=True`: `num` evenly
spaced points, step `(b - a) / (num - 1)`.  For `num = 1` numpy returns
`[a]`, which the formula also yields since division by zero is zero
in `Rat`. -/
def linspaceQ (a b : ℚ) (num : ℕ) : List ℚ :=
  (List.range num).map (fun (i : ℕ) => a + (i : ℚ) * (b - a) / ((num : ℚ) - 1))

/-- The frequency axis built by `compute_fft` (main.py line 504):
`np.linspace(0.0, 1.0 / (2.0 * T), N // 2)`. -/
def fft_xf (n : ℕ) (T : ℚ) : List ℚ := linspaceQ 0 (1 / (2 * T)) (n / 2)

/-- The discrete Fourier transform computed by `scipy.fftpack.fft`:
`X_k = Σ_j x_j · exp(-2πi·j·k/n)`. -/
noncomputable def dft (x : List ℂ) : List ℂ :=
  (List.range x.length).map (fun (k : ℕ) =>
    ∑ j ∈ Finset.range x.length,
      x.getD j 0
        * Complex.exp (-(2 * (Real.pi : ℂ) * Complex.I * (j : ℂ) * (k : ℂ))
            / (x.length : ℂ)))

/-- The magnitude list plotted by `compute_fft` (main.py line 508):
`2.0 / N * np.abs(yf[:N // 2])` — note the first entry is the DC bin and
it receives the same `2 / N` factor as every other bin. -/
noncomputable def fft_mags (x : List ℚ) : List ℝ :=
  ((dft (x.map (fun (q : ℚ) => (q : ℂ)))).take (x.length / 2)).map
    (fun z => 2 / (x.length : ℝ) * Complex.abs z)

/-- What pressing FFT does to the model state: `compute_fft` only draws,
it never writes the sample lists, so the `Scope` component is returned
unchanged.  `if len(self.data) > 0` guards the whole body, so an empty
buffer yields a silent no-op (no report of any kind); with a nonempty
buffer line 502 evaluates `self.timestamps[1]`, which raises an uncaught
`IndexError` whenever fewer than two timestamps exist. -/
inductive FftOutcome where
  | nothingDone
  | indexError
  | plotted (xf : List ℚ) (mags : List ℝ)

noncomputable def compute_fft (s : Scope) : Scope × FftOutcome :=
  if s.data.length = 0 then (s, FftOutcome.nothingDone)
  else if s.timestamps.length < 2 then (s, FftOutcome.indexError)
  else
    (s, FftOutcome.plotted
      (fft_xf s.data.length (s.timestamps.getD 1 0 - s.timestamps.getD 0 0))
      (fft_mags s.data))

/-- `np.fft.rfftfreq(n, d)`: frequencies `k / (n·d)` for `k ≤ n // 2`. -/
def rfft_freqs (n : ℕ) (d : ℚ) : List ℚ :=
  (List.range (n / 2 + 1)).map (fun (k : ℕ) => (k : ℚ) / ((n : ℚ) * d))

/-- `abs(np.fft.rfft(y))`: unscaled magnitudes of the first `n // 2 + 1`
DFT bins. -/
noncomputable def rfft_mags (y : List ℚ) : List ℝ :=
  ((dft (y.map (fun (q : ℚ) => (q : ℂ)))).take (y.length / 2 + 1)).map
    (fun z => Complex.abs z)

/-- `perform_fft` (EPTscope.py lines 394-402): with fewer than 2 samples
it shows the "Not enough data" warning and computes nothing; otherwise it
plots `abs(rfft(buffer_y))` against `rfftfreq(n, d = (t1 - t0)/1000)` in a
fresh window, never touching the buffer. -/
noncomputable def perform_fft (bufT bufY : List ℚ) :
    Except Report (List ℚ × List ℝ) :=
  if bufY.length < 2 then Except.error Report.insufficientData
  else
    Except.ok
      (rfft_freqs bufY.length ((bufT.getD 1 0 - bufT.getD 0 0) / 1000),
        rfft_mags bufY)

/-- C6 (bug in main.py): with exactly one sample in the buffer,
`compute_fft` passes its `len(self.data) > 0` guard and then raises
`IndexError` on `self.timestamps[1]` — no insufficient-data report is
made (and the buffer is returned unchanged).  The sibling implementation
`perform_fft` guards `len < 2` correctly and reports insufficient data
without computing, as the spec describes. -/
theorem compute_fft_one_sample_index_error :
    compute_fft
        { ser := true, is_running := true, timerOn := true,
          timestamps := [0], data := [1/2], workers := 1 }
      = ({ ser := true, is_running := true, timerOn := true,
            timestamps := [0], data := [1/2], workers := 1 },
          FftOutcome.indexError)
    ∧ perform_fft [0] [1/2] = Except.error Report.insufficientData := by
  constructor
  · rfl
  · rfl

theorem dft_length (x : List ℂ) : (dft x).length = x.length := by
  unfold dft
  simp

theorem dft_getD_zero (x : List ℂ) (h : x ≠ []) :
    (dft x).getD 0 0 = ∑ j ∈ Finset.range x.length, x.getD j 0 := by
  unfold dft
  rw [getD_map_range _ _ _ _ (by cases x <;> simp_all)]
  simp

theorem fft_mags_eq (x : List ℚ) :
    fft_mags x = (List.range (x.length / 2)).map (fun (i : ℕ) =>
      2 / (x.length : ℝ)
        * Complex.abs ((dft (x.map (fun (q : ℚ) => (q : ℂ)))).getD i 0)) := by
  unfold fft_mags
  have h1 : dft (x.map (fun (q : ℚ) => (q : ℂ)))
      = (List.range x.length).map (fun (k : ℕ) =>
          ∑ j ∈ Finset.range x.length,
            (x.map (fun (q : ℚ) => (q : ℂ))).getD j 0
              * Complex.exp
                  (-(2 * (Real.pi : ℂ) * Complex.I * (j : ℂ) * (k : ℂ))
                    / (x.length : ℂ))) := by
    unfold dft
    simp
  rw [h1, ← List.map_take, List.take_range,
    Nat.min_eq_left (Nat.div_le_self _ _), List.map_map]
  apply List.map_congr_left
  intro i hi
  rw [List.mem_range] at hi
  have h2 : i < x.length := lt_of_lt_of_le hi (Nat.div_le_self _ _)
  simp only [Function.comp_apply]
  rw [getD_map_range _ _ _ _ h2]

theorem fft_mags_getD (x : List ℚ) (i : ℕ) (hi : i < x.length / 2) :
    (fft_mags x).getD i 0
      = 2 / (x.length : ℝ)
        * Complex.abs ((dft (x.map (fun (q : ℚ) => (q : ℂ)))).getD i 0) := by
  rw [fft_mags_eq, getD_map_range _ _ _ _ hi]

theorem fft_xf_getD (n : ℕ) (T : ℚ) (i : ℕ) (hi : i < n / 2) :
    (fft_xf n T).getD i 0
      = (i : ℚ) * (1 / (2 * T)) / (((n / 2 : ℕ) : ℚ) - 1) := by
  unfold fft_xf linspaceQ
  rw [getD_map_range _ _ _ _ hi]
  ring

/-- Modelled from the spec's words, for comparison with the code's
spectrum: frequency bins at `k / (n·dt)` up to Nyquist and magnitudes
scaled `2/n` except the DC bin, which is "not rescaled by 2" (scaled
`1/n`). -/
def spec_fft_freqs (n : ℕ) (dt : ℚ) : List ℚ :=
  (List.range (n / 2)).map (fun (k : ℕ) => (k : ℚ) / ((n : ℚ) * dt))

/-- Modelled from the spec's words: the magnitude scaling with the DC bin
exempted from the factor 2. -/
noncomputable def spec_fft_mags (x : List ℚ) : List ℝ :=
  (List.range (x.length / 2)).map (fun (k : ℕ) =>
    (if k = 0 then 1 / (x.length : ℝ) else 2 / (x.length : ℝ))
      * Complex.abs ((dft (x.map (fun (q : ℚ) => (q : ℂ)))).getD k 0))

/-- C7 counterexample, at six constant samples `1` with `dt = 1`:
the code's second frequency bin is `1/4` (linspace reaches Nyquist in
`6//2 = 3` points, spacing `(1/2)/2`), not the claimed spacing
`1/(n·dt) = 1/6`; and the code's DC magnitude is `2 = (2/6)·|Σx|`, not
`1 = (1/6)·|Σx|` as claimed for a DC bin that is "not rescaled by 2". -/
theorem fft_scaling_spacing_cex :
    (fft_xf 6 1).getD 1 0 = 1/4
    ∧ (spec_fft_freqs 6 1).getD 1 0 = 1/6
    ∧ ((1 : ℚ)/4) ≠ 1/6
    ∧ (fft_mags [1, 1, 1, 1, 1, 1]).getD 0 0 = 2
    ∧ (spec_fft_mags [1, 1, 1, 1, 1, 1]).getD 0 0 = 1
    ∧ ((2 : ℝ)) ≠ 1 := by
  have hdft : (dft (([1, 1, 1, 1, 1, 1] : List ℚ).map (fun (q : ℚ) => (q : ℂ)))).getD 0 0
      = 6 := by
    rw [dft_getD_zero _ (by simp)]
    simp [Finset.sum_range_succ]
    norm_num
  refine ⟨?_, ?_, by norm_num, ?_, ?_, by norm_num⟩
  · rw [fft_xf_getD 6 1 1 (by norm_num)]
    norm_num
  · unfold spec_fft_freqs
    rw [getD_map_range _ _ _ _ (by norm_num)]
    norm_num
  · rw [fft_mags_getD _ _ (by norm_num), hdft]
    norm_num
  · unfold spec_fft_mags
    rw [getD_map_range _ _ _ _ (by norm_num)]
    rw [if_pos rfl]
    rw [hdft]
    norm_num

/-- C7 as amended: for a buffer of `n ≥ 2` samples with sampling interval
`T`, `compute_fft` plots `n // 2` frequency points linearly spaced from 0
with step `(1/(2T)) / (n//2 - 1)` — reaching the Nyquist frequency
`1/(2T)` at the last point when `n//2 ≥ 2` — against `n // 2` magnitudes,
each (including the DC bin) equal to `2/n` times the absolute value of
the corresponding DFT coefficient. -/
theorem fft_code_spectrum_shape (x : List ℚ) (T : ℚ) (hn : 2 ≤ x.length) :
    (fft_xf x.length T).length = x.length / 2
    ∧ (∀ i, i < x.length / 2 →
        (fft_xf x.length T).getD i 0
          = (i : ℚ) * (1 / (2 * T)) / (((x.length / 2 : ℕ) : ℚ) - 1))
    ∧ (2 ≤ x.length / 2 →
        (fft_xf x.length T).getD (x.length / 2 - 1) 0 = 1 / (2 * T))
    ∧ (fft_mags x).length = x.length / 2
    ∧ (∀ i, i < x.length / 2 →
        (fft_mags x).getD i 0
          = 2 / (x.length : ℝ)
            * Complex.abs ((dft (x.map (fun (q : ℚ) => (q : ℂ)))).getD i 0)) := by
  refine ⟨by unfold fft_xf linspaceQ; simp,
    fun i hi => fft_xf_getD _ _ _ hi, ?_, by rw [fft_mags_eq]; simp,
    fun i hi => fft_mags_getD _ _ hi⟩
  intro h2
  rw [fft_xf_getD _ _ _ (by omega)]
  have hc : (((x.length / 2 - 1 : ℕ)) : ℚ) = ((x.length / 2 : ℕ) : ℚ) - 1 := by
    have : 1 ≤ x.length / 2 := by omega
    push_cast [Nat.cast_sub this]
    ring
  rw [hc]
  have hne : ((x.length / 2 : ℕ) : ℚ) - 1 ≠ 0 := by
    have h6 : (2 : ℚ) ≤ ((x.length / 2 : ℕ) : ℚ) := by exact_mod_cast h2
    intro hzero
    rw [sub_eq_zero] at hzero
    rw [hzero] at h6
    norm_num at h6
  rw [mul_comm, mul_div_assoc, div_self hne, mul_one]

/-- Witness for `fft_code_spectrum_shape` at six samples, `T = 1`. -/
theorem fft_code_spectrum_shape_witness :
    (fft_xf 6 1).length = 3 ∧ (fft_mags [1, 1, 1, 1, 1, 1]).length = 3 :=
  ⟨(fft_code_spectrum_shape [1, 1, 1, 1, 1, 1] 1 (by norm_num)).1,
    (fft_code_spectrum_shape [1, 1, 1, 1, 1, 1] 1 (by norm_num)).2.2.2.1⟩

/-- The ten decimal digit characters. -/
def DIGITS : List Char := ['0', '1', '2', '3', '4', '5', '6', '7', '8', '9']

def charOfDigit (d : ℕ) : Char :=
  if d = 0 then '0' else if d = 1 then '1' else if d = 2 then '2'
  else if d = 3 then '3' else if d = 4 then '4' else if d = 5 then '5'
  else if d = 6 then '6' else if d = 7 then '7' else if d = 8 then '8'
  else '9'

/-- Big-endian decimal digit characters of `n` (empty for `n = 0`);
`fuel`-bounded structural recursion with `n ≤ fuel`. -/
def natDigitsBE : ℕ → ℕ → List Char
  | 0, _ => []
  | fuel + 1, n =>
    if n = 0 then [] else natDigitsBE fuel (n / 10) ++ [charOfDigit (n % 10)]

/-- Digit characters of `n`, with `0` rendered as `"0"`. -/
def decimalDigitsBE (n : ℕ) : List Char :=
  if n = 0 then ['0'] else natDigitsBE n n

/-- Exactly `k` big-endian digit characters of `f mod 10^k` (the
fractional part of a fixed-point decimal). -/
def fracDigitsBE : ℕ → ℕ → List Char
  | 0, _ => []
  | k + 1, f => fracDigitsBE k (f / 10) ++ [charOfDigit (f % 10)]

/-- The numeric value of a big-endian digit-character string. -/
def ofBE (cs : List Char) : ℕ :=
  cs.foldl (fun a c => 10 * a + (c.toNat - 48)) 0

/-- A rational is exactly representable as a finite decimal iff its
(reduced) denominator divides a power of ten; `10 ^ den` is always a
large enough power.  Every IEEE float (the values Python actually
serialises) satisfies this. -/
def decRat (q : ℚ) : Prop := q.den ∣ 10 ^ q.den

instance (q : ℚ) : Decidable (decRat q) := by
  unfold decRat
  infer_instance

/-- The unsigned body of `str(float)` for a nonnegative decimal rational:
integer digits, a dot, then `den` fractional digits (idealising Python's
shortest-repr printing to a fixed-width exact decimal; both parse back to
the same value). -/
def serMag (q : ℚ) : List Char :=
  decimalDigitsBE (q.num.natAbs * (10 ^ q.den / q.den) / 10 ^ q.den)
    ++ '.' :: fracDigitsBE q.den (q.num.natAbs * (10 ^ q.den / q.den) % 10 ^ q.den)

/-- `f"{x}"` for a float value, as written by `export_data`:
optional minus sign followed by the unsigned decimal body. -/
def serializeQ (q : ℚ) : List Char :=
  (if q < 0 then ['-'] else []) ++ serMag q

/-- `float(s)` on an unsigned decimal literal: digits with an optional
dot and fractional digits (the subset of Python float syntax that
`export_data` produces; exponents etc. are never emitted). -/
def parseUnsigned (cs : List Char) : Option ℚ :=
  if cs.dropWhile Char.isDigit = [] then
    if cs = [] then none else some ((ofBE cs : ℚ))
  else if (cs.dropWhile Char.isDigit).head? = some '.'
      ∧ (cs.takeWhile Char.isDigit ≠ [] ∨ (cs.dropWhile Char.isDigit).tail ≠ [])
      ∧ ((cs.dropWhile Char.isDigit).tail).all Char.isDigit then
    some ((ofBE (cs.takeWhile Char.isDigit) : ℚ)
      + (ofBE ((cs.dropWhile Char.isDigit).tail) : ℚ)
        / 10 ^ ((cs.dropWhile Char.isDigit).tail).length)
  else none

/-- `float(s)` with an optional leading minus sign. -/
def parseFloat (cs : List Char) : Option ℚ :=
  if cs.head? = some '-' then (parseUnsigned (cs.drop 1)).map (fun q => -q)
  else parseUnsigned cs

theorem charOfDigit_mem (d : ℕ) : charOfDigit d ∈ DIGITS := by
  unfold charOfDigit DIGITS
  split_ifs <;> decide

theorem charOfDigit_toNat (d : ℕ) (h : d < 10) :
    (charOfDigit d).toNat - 48 = d := by
  interval_cases d <;> decide

theorem mem_DIGITS_isDigit (c : Char) (h : c ∈ DIGITS) : c.isDigit = true := by
  simp only [DIGITS, List.mem_cons, List.not_mem_nil, or_false] at h
  rcases h with h | h | h | h | h | h | h | h | h | h <;> subst h <;> decide

theorem mem_DIGITS_not_ws (c : Char) (h : c ∈ DIGITS) :
    (!c.isWhitespace) = true := by
  simp only [DIGITS, List.mem_cons, List.not_mem_nil, or_false] at h
  rcases h with h | h | h | h | h | h | h | h | h | h <;> subst h <;> decide

theorem natDigitsBE_mem (fuel n : ℕ) :
    ∀ c ∈ natDigitsBE fuel n, c ∈ DIGITS := by
  induction fuel generalizing n with
  | zero => simp [natDigitsBE]
  | succ fuel ih =>
    intro c hc
    unfold natDigitsBE at hc
    by_cases hn : n = 0
    · rw [if_pos hn] at hc
      simp at hc
    · rw [if_neg hn] at hc
      rcases List.mem_append.mp hc with h | h
      · exact ih (n / 10) c h
      · rw [List.mem_singleton] at h
        rw [h]
        exact charOfDigit_mem _

theorem fracDigitsBE_mem (k f : ℕ) : ∀ c ∈ fracDigitsBE k f, c ∈ DIGITS := by
  induction k generalizing f with
  | zero => simp [fracDigitsBE]
  | succ k ih =>
    intro c hc
    unfold fracDigitsBE at hc
    rcases List.mem_append.mp hc with h | h
    · exact ih (f / 10) c h
    · rw [List.mem_singleton] at h
      rw [h]
      exact charOfDigit_mem _

theorem decimalDigitsBE_mem (n : ℕ) : ∀ c ∈ decimalDigitsBE n, c ∈ DIGITS := by
  unfold decimalDigitsBE
  split
  · intro c hc
    rw [List.mem_singleton] at hc
    rw [hc]
    decide
  · exact natDigitsBE_mem n n

theorem decimalDigitsBE_ne_nil (n : ℕ) : decimalDigitsBE n ≠ [] := by
  unfold decimalDigitsBE
  split
  · simp
  · rename_i hn
    cases n with
    | zero => exact absurd rfl hn
    | succ m =>
      unfold natDigitsBE
      rw [if_neg hn]
      simp

theorem ofBE_go (cs : List Char) (a : ℕ) :
    cs.foldl (fun a c => 10 * a + (c.toNat - 48)) a
      = a * 10 ^ cs.length + ofBE cs := by
  induction cs generalizing a with
  | nil => simp [ofBE]
  | cons c cs ih =>
    rw [List.foldl_cons, ih]
    have h2 : ofBE (c :: cs) = (c.toNat - 48) * 10 ^ cs.length + ofBE cs := by
      unfold ofBE
      rw [List.foldl_cons, ih (10 * 0 + (c.toNat - 48))]
      simp [ofBE]
    rw [h2]
    simp [List.length_cons, pow_succ]
    ring

theorem ofBE_append_digit (cs : List Char) (c : Char) :
    ofBE (cs ++ [c]) = 10 * ofBE cs + (c.toNat - 48) := by
  unfold ofBE
  rw [List.foldl_append]
  rfl

theorem ofBE_natDigitsBE (fuel n : ℕ) (h : n ≤ fuel) :
    ofBE (natDigitsBE fuel n) = n := by
  induction fuel generalizing n with
  | zero =>
    interval_cases n
    rfl
  | succ fuel ih =>
    unfold natDigitsBE
    by_cases hn : n = 0
    · rw [if_pos hn, hn]
      rfl
    · have hdiv : n / 10 ≤ fuel := by
        have := Nat.div_lt_self (Nat.pos_of_ne_zero hn) (by norm_num : 1 < 10)
        omega
      rw [if_neg hn, ofBE_append_digit, ih (n / 10) hdiv,
        charOfDigit_toNat _ (Nat.mod_lt _ (by norm_num))]
      omega

theorem ofBE_decimalDigitsBE (n : ℕ) : ofBE (decimalDigitsBE n) = n := by
  unfold decimalDigitsBE
  split
  · rename_i hn
    rw [hn]
    rfl
  · exact ofBE_natDigitsBE n n le_rfl

theorem fracDigitsBE_length (k f : ℕ) : (fracDigitsBE k f).length = k := by
  induction k generalizing f with
  | zero => rfl
  | succ k ih =>
    unfold fracDigitsBE
    simp [ih]

theorem ofBE_fracDigitsBE (k f : ℕ) : ofBE (fracDigitsBE k f) = f % 10 ^ k := by
  induction k generalizing f with
  | zero => simp [fracDigitsBE, ofBE, Nat.mod_one]
  | succ k ih =>
    unfold fracDigitsBE
    rw [ofBE_append_digit, ih (f / 10),
      charOfDigit_toNat _ (Nat.mod_lt _ (by norm_num))]
    have ha : f / 10 % 10 ^ k < 10 ^ k :=
      Nat.mod_lt _ (Nat.pos_pow_of_pos k (by norm_num))
    have hr : f % 10 < 10 := Nat.mod_lt _ (by norm_num)
    have hlt : 10 * (f / 10 % 10 ^ k) + f % 10 < 10 ^ (k + 1) := by
      rw [pow_succ]
      omega
    have hf : f = 10 * (f / 10 % 10 ^ k) + f % 10
        + 10 ^ (k + 1) * (f / 10 / 10 ^ k) := by
      have h1 := Nat.div_add_mod f 10
      have h2 := Nat.div_add_mod (f / 10) (10 ^ k)
      calc f = 10 * (f / 10) + f % 10 := h1.symm
        _ = 10 * (10 ^ k * (f / 10 / 10 ^ k) + f / 10 % 10 ^ k) + f % 10 := by
            rw [h2]
        _ = 10 * (f / 10 % 10 ^ k) + f % 10
            + 10 ^ (k + 1) * (f / 10 / 10 ^ k) := by
            rw [pow_succ]
            ring
    conv_rhs => rw [hf]
    rw [Nat.add_mul_mod_self_left, Nat.mod_eq_of_lt hlt]

theorem takeWhile_append_not (p : Char → Bool) (l1 : List Char) (c : Char)
    (l2 : List Char) (h1 : ∀ x ∈ l1, p x = true) (hc : p c = false) :
    (l1 ++ c :: l2).takeWhile p = l1
    ∧ (l1 ++ c :: l2).dropWhile p = c :: l2 := by
  induction l1 with
  | nil => simp [List.takeWhile_cons, List.dropWhile_cons, hc]
  | cons a l1 ih =>
    have ha : p a = true := h1 a (List.mem_cons_self _ _)
    have ih2 := ih (fun x hx => h1 x (List.mem_cons_of_mem _ hx))
    simp only [List.cons_append, List.takeWhile_cons, List.dropWhile_cons,
      ha, if_true]
    simp [ih2.1, ih2.2]

theorem parseUnsigned_decimal (I k f : ℕ) (hf : f < 10 ^ k) :
    parseUnsigned (decimalDigitsBE I ++ '.' :: fracDigitsBE k f)
      = some ((I : ℚ) + (f : ℚ) / 10 ^ k) := by
  have hsplit := takeWhile_append_not Char.isDigit (decimalDigitsBE I) '.'
    (fracDigitsBE k f)
    (fun c hc => mem_DIGITS_isDigit c (decimalDigitsBE_mem _ c hc))
    (by decide)
  unfold parseUnsigned
  rw [hsplit.1, hsplit.2]
  rw [if_neg (by simp)]
  rw [if_pos ⟨rfl, Or.inl (decimalDigitsBE_ne_nil I), by
    rw [List.all_eq_true]
    intro c hc
    exact mem_DIGITS_isDigit c (fracDigitsBE_mem k f c (by simpa using hc))⟩]
  rw [List.tail_cons, ofBE_decimalDigitsBE, ofBE_fracDigitsBE,
    fracDigitsBE_length, Nat.mod_eq_of_lt hf]

theorem parseUnsigned_serMag (q : ℚ) (h : decRat q) :
    parseUnsigned (serMag q) = some |q| := by
  unfold serMag
  rw [parseUnsigned_decimal _ _ _ (Nat.mod_lt _ (Nat.pos_pow_of_pos _ (by norm_num)))]
  congr 1
  have hden0 : ((q.den : ℚ)) ≠ 0 := by
    exact_mod_cast q.den_nz
  have hpow0 : ((10 : ℚ)) ^ q.den ≠ 0 := by positivity
  have hM : ((q.num.natAbs * (10 ^ q.den / q.den) : ℕ) : ℚ)
      = |q| * 10 ^ q.den := by
    rw [Nat.cast_mul, Nat.cast_div h hden0]
    have habs : |q| = |(q.num : ℚ)| / (q.den : ℚ) := by
      have hdpos : (0 : ℚ) < (q.den : ℚ) := by exact_mod_cast q.pos
      have h2 : |(q.num : ℚ)| / (q.den : ℚ) = |q| := by
        rw [← abs_of_pos hdpos, ← abs_div, Rat.num_div_den]
      exact h2.symm
    rw [habs, Int.cast_natAbs]
    push_cast
    field_simp
  have hsum : ∀ M : ℕ,
      ((M / 10 ^ q.den : ℕ) : ℚ) + ((M % 10 ^ q.den : ℕ) : ℚ) / 10 ^ q.den
        = (M : ℚ) / 10 ^ q.den := by
    intro M
    have hnat := Nat.div_add_mod M (10 ^ q.den)
    have hQ : (10 : ℚ) ^ q.den * ((M / 10 ^ q.den : ℕ) : ℚ)
        + ((M % 10 ^ q.den : ℕ) : ℚ) = (M : ℚ) := by
      exact_mod_cast hnat
    field_simp
    linarith
  rw [hsum, hM, mul_div_assoc, div_self hpow0, mul_one]

theorem mem_DIGITS_ne_minus (c : Char) (h : c ∈ DIGITS) : c ≠ '-' := by
  simp only [DIGITS, List.mem_cons, List.not_mem_nil, or_false] at h
  rcases h with h | h | h | h | h | h | h | h | h | h <;> subst h <;> decide

theorem serMag_head_not_minus (q : ℚ) : ¬ (serMag q).head? = some '-' := by
  obtain ⟨c, cs, hcons⟩ :=
    List.exists_cons_of_ne_nil (decimalDigitsBE_ne_nil
      (q.num.natAbs * (10 ^ q.den / q.den) / 10 ^ q.den))
  unfold serMag
  rw [hcons]
  simp only [List.cons_append, List.head?_cons, Option.some.injEq]
  have hmem : c ∈ DIGITS := by
    apply decimalDigitsBE_mem
    rw [hcons]
    exact List.mem_cons_self _ _
  exact mem_DIGITS_ne_minus c hmem

theorem parseFloat_serializeQ (q : ℚ) (h : decRat q) :
    parseFloat (serializeQ q) = some q := by
  unfold serializeQ parseFloat
  by_cases hq : q < 0
  · rw [if_pos hq]
    simp only [List.singleton_append, List.head?_cons, List.drop_succ_cons,
      List.drop_zero, Option.some.injEq, if_true]
    rw [parseUnsigned_serMag q h]
    simp [abs_of_neg hq]
  · rw [if_neg hq]
    simp only [List.nil_append]
    rw [if_neg (serMag_head_not_minus q), parseUnsigned_serMag q h,
      abs_of_nonneg (le_of_not_lt hq)]

/-- The predicate `line.strip().split()` tokenises on: a character that
is part of a field. -/
def nonWS (c : Char) : Bool := !c.isWhitespace

theorem serializeQ_not_ws (q : ℚ) : ∀ c ∈ serializeQ q, nonWS c = true := by
  intro c hc
  unfold serializeQ serMag at hc
  rcases List.mem_append.mp hc with h | h
  · split at h
    · rw [List.mem_singleton] at h
      rw [h]
      decide
    · simp at h
  · rcases List.mem_append.mp h with h2 | h2
    · exact mem_DIGITS_not_ws c (decimalDigitsBE_mem _ c h2)
    · rcases List.mem_cons.mp h2 with h3 | h3
      · rw [h3]
        decide
      · exact mem_DIGITS_not_ws c (fracDigitsBE_mem _ _ c h3)

theorem serializeQ_ne_nil (q : ℚ) : serializeQ q ≠ [] := by
  unfold serializeQ serMag
  intro hnil
  rcases List.append_eq_nil.mp hnil with ⟨-, h2⟩
  rcases List.append_eq_nil.mp h2 with ⟨h3, -⟩
  exact decimalDigitsBE_ne_nil _ h3

theorem runsOfAux_all (p : Char → Bool) (l : List Char)
    (rs : List (List Char)) (h : ∀ c ∈ l, p c = true) (hne : l ≠ []) :
    l.foldr (runStep p) ([], rs) = (l, rs) := by
  induction l with
  | nil => exact absurd rfl hne
  | cons c cs ih =>
    rw [List.foldr_cons]
    by_cases hcs : cs = []
    · subst hcs
      simp [runStep, h c (List.mem_cons_self _ _)]
    · rw [ih (fun x hx => h x (List.mem_cons_of_mem _ hx)) hcs]
      simp [runStep, h c (List.mem_cons_self _ _)]

theorem runsOf_pair (p : Char → Bool) (a : List Char) (c : Char)
    (b : List Char) (ha : ∀ x ∈ a, p x = true) (hane : a ≠ [])
    (hc : p c = false) (hb : ∀ x ∈ b, p x = true) (hbne : b ≠ []) :
    runsOf p (a ++ c :: b) = [a, b] := by
  unfold runsOf runsOfAux
  rw [List.foldr_append]
  have h1 : List.foldr (runStep p) ([], []) (c :: b) = ([], [b]) := by
    rw [List.foldr_cons, runsOfAux_all p b [] hb hbne]
    simp [runStep, hc, hbne]
  rw [h1, runsOfAux_all p a [b] ha hane]
  simp [hane]

/-- The `.txt` branch of `export_data` (main.py lines 518-525): one line
per `(timestamp, voltage)` pair of `zip(self.timestamps, self.data)`,
written as the two decimal strings separated by a single space.  No
header line is written. -/
def export_lines (ts vs : List ℚ) : List (List Char) :=
  (ts.zip vs).map (fun p => serializeQ p.1 ++ ' ' :: serializeQ p.2)

/-- The read loop of `open_signal` (main.py lines 544-552): for each
line, `parts = line.strip().split()`; a line with exactly two fields has
both fields converted by `float` and appended to the two lists; a line
with any other number of fields is silently skipped; a `float` conversion
failure raises, aborting the whole load (`none`). -/
def importLines : List (List Char) → Option (List ℚ × List ℚ)
  | [] => some ([], [])
  | l :: rest =>
    if (runsOf nonWS l).length = 2 then
      (parseFloat ((runsOf nonWS l).getD 0 [])).bind (fun t =>
        (parseFloat ((runsOf nonWS l).getD 1 [])).bind (fun v =>
          (importLines rest).map (fun p => (t :: p.1, v :: p.2))))
    else importLines rest

/-- `open_signal`'s effect on the state: on success both lists are
replaced by the parsed columns; on failure (exception caught at line 561)
the buffer is left untouched. -/
def open_signal (s : Scope) (lines : List (List Char)) : Scope :=
  (importLines lines).elim s
    (fun p => { s with timestamps := p.1, data := p.2 })

theorem importLines_export (ts : List ℚ) (vs : List ℚ)
    (hlen : ts.length = vs.length)
    (hts : ∀ q ∈ ts, decRat q) (hvs : ∀ q ∈ vs, decRat q) :
    importLines (export_lines ts vs) = some (ts, vs) := by
  induction ts generalizing vs with
  | nil =>
    cases vs with
    | nil => rfl
    | cons v vs => simp at hlen
  | cons t ts ih =>
    cases vs with
    | nil => simp at hlen
    | cons v vs =>
      have hline : runsOf nonWS (serializeQ t ++ ' ' :: serializeQ v)
          = [serializeQ t, serializeQ v] :=
        runsOf_pair nonWS (serializeQ t) ' ' (serializeQ v)
          (serializeQ_not_ws t) (serializeQ_ne_nil t) (by decide)
          (serializeQ_not_ws v) (serializeQ_ne_nil v)
      show importLines
          ((serializeQ t ++ ' ' :: serializeQ v) :: export_lines ts vs)
        = some (t :: ts, v :: vs)
      rw [importLines, hline]
      rw [if_pos (by simp)]
      simp only [List.getD_cons_zero, List.getD_cons_succ]
      rw [parseFloat_serializeQ t (hts t (List.mem_cons_self _ _)),
        parseFloat_serializeQ v (hvs v (List.mem_cons_self _ _))]
      rw [Option.some_bind, Option.some_bind,
        ih vs (by simpa using hlen)
          (fun q hq => hts q (List.mem_cons_of_mem _ hq))
          (fun q hq => hvs q (List.mem_cons_of_mem _ hq))]
      rfl

/-- C8: exporting any buffer whose timestamps and values are
decimal-representable rationals (every IEEE float is) to the `.txt`
format of `export_data` and re-importing with `open_signal`'s reader
yields columns of the same length, every entry within `1e-9` of the
original (in fact exactly equal). -/
theorem export_import_round_trip (ts : List ℚ) (vs : List ℚ)
    (hlen : ts.length = vs.length)
    (hts : ∀ q ∈ ts, decRat q) (hvs : ∀ q ∈ vs, decRat q) :
    ∃ ts' vs', importLines (export_lines ts vs) = some (ts', vs')
      ∧ ts'.length = ts.length ∧ vs'.length = vs.length
      ∧ (∀ i, |ts'.getD i 0 - ts.getD i 0| ≤ 1 / 1000000000)
      ∧ (∀ i, |vs'.getD i 0 - vs.getD i 0| ≤ 1 / 1000000000) := by
  refine ⟨ts, vs, importLines_export ts vs hlen hts hvs, rfl, rfl, ?_, ?_⟩
    <;> intro i <;> simp

/-- Witness for `export_import_round_trip`: a concrete buffer with
timestamps `[0, 1]` and values `[2, -3]`. -/
theorem export_import_round_trip_witness :
    ∃ ts' vs',
      importLines (export_lines [0, 1] [2, -3]) = some (ts', vs')
      ∧ ts'.length = ([0, 1] : List ℚ).length
      ∧ vs'.length = ([2, -3] : List ℚ).length
      ∧ (∀ i, |ts'.getD i 0 - ([0, 1] : List ℚ).getD i 0| ≤ 1 / 1000000000)
      ∧ (∀ i, |vs'.getD i 0 - ([2, -3] : List ℚ).getD i 0| ≤ 1 / 1000000000) :=
  export_import_round_trip [0, 1] [2, -3] rfl
    (by intro q hq; rcases List.mem_cons.mp hq with h | h
        · rw [h]; decide
        · rw [List.mem_singleton.mp h]; decide)
    (by intro q hq; rcases List.mem_cons.mp hq with h | h
        · rw [h]; decide
        · rw [List.mem_singleton.mp h]; decide)

theorem importLines_lengths (lines : List (List Char))
    (p : List ℚ × List ℚ) (h : importLines lines = some p) :
    p.1.length = p.2.length := by
  induction lines generalizing p with
  | nil =>
    rw [importLines] at h
    cases h
    rfl
  | cons l rest ih =>
    rw [importLines] at h
    by_cases h2 : (runsOf nonWS l).length = 2
    · rw [if_pos h2] at h
      rcases Option.bind_eq_some.mp h with ⟨t, -, h3⟩
      rcases Option.bind_eq_some.mp h3 with ⟨v, -, h4⟩
      rcases Option.map_eq_some'.mp h4 with ⟨p', hp', hp⟩
      rw [← hp]
      simpa using ih p' hp'
    · rw [if_neg h2] at h
      exact ih p h

/-- C10: each buffer-modifying operation preserves the alignment of the
two lists: the locked append-and-evict of `read_data`, a confirmed or
declined `clear_screen`, and `open_signal` (whose reader appends to both
lists in lockstep and aborts atomically on a malformed number) all leave
`len(data) = len(timestamps)`. -/
theorem buffer_lengths_aligned (s : Scope)
    (h : s.data.length = s.timestamps.length) :
    (∀ t v, (pushSample s t v).data.length
        = (pushSample s t v).timestamps.length)
    ∧ (∀ c, (clear_screen c s).data.length
        = (clear_screen c s).timestamps.length)
    ∧ (∀ lines, (open_signal s lines).data.length
        = (open_signal s lines).timestamps.length) := by
  refine ⟨fun t v => (pushSample_data s t v h).2.2.1, fun c => ?_,
    fun lines => ?_⟩
  · cases c <;> simp [clear_screen, h]
  · unfold open_signal
    cases him : importLines lines with
    | none => simpa [Option.elim] using h
    | some p =>
      simp only [Option.elim]
      exact (importLines_lengths lines p him).symm

/-- Witness for `buffer_lengths_aligned` at the fresh state. -/
theorem buffer_lengths_aligned_witness :
    (∀ t v, (pushSample initScope t v).data.length
        = (pushSample initScope t v).timestamps.length)
    ∧ (∀ c, (clear_screen c initScope).data.length
        = (clear_screen c initScope).timestamps.length)
    ∧ (∀ lines, (open_signal initScope lines).data.length
        = (open_signal initScope lines).timestamps.length) :=
  buffer_lengths_aligned initScope rfl

end EPTScope
